import Mathlib

/-!
Verification development for the aiofile repository (POSIX AIO backends in
`aiofile/posix_aio.pyx`, `aiofile/aio.pyx`, `aiofile/_aio.pyx`).

The Cython sources are embedded shallowly: each `cdef`/`cpdef` routine that a
verified property touches is rendered as an executable Lean function on an
explicit state, with C `uint32_t` arithmetic carried out as `Nat` modulo
`2 ^ 32`, byte buffers as `List Nat`, and fallible paths as `Except`.
-/

namespace Aiofile

/-- Width of the `uint32_t` fields of `SimpleSemaphore` in posix_aio.pyx. -/
def U32 : Nat := 2 ^ 32

/-- State of `SimpleSemaphore` (posix_aio.pyx lines 132-155): `value` is the
number of currently admitted operations, `maxValue` the admission ceiling.
Both fields are C `uint32_t` counters, so they always hold values below
`2 ^ 32`. -/
structure SimpleSemaphore where
  value : Nat
  maxValue : Nat
deriving Repr, DecidableEq

/-- `SimpleSemaphore.release` (posix_aio.pyx 153-155): decrement `value`
only when it is positive, otherwise leave the state unchanged. -/
def SimpleSemaphore.release (s : SimpleSemaphore) : SimpleSemaphore :=
  if s.value > 0 then { s with value := s.value - 1 } else s

/-- C `uint32_t` decrement `n - 1`: for `n < 2 ^ 32` this equals
`(n - 1) mod 2 ^ 32`, i.e. it underflows to `2 ^ 32 - 1 = 4294967295`
exactly when `n = 0`. -/
def u32pred (n : Nat) : Nat :=
  if n = 0 then 4294967295 else n - 1

/-- `SimpleSemaphore.set_max_value` (posix_aio.pyx 150-151):
`self.max_value = self.value - 1` in `uint32_t` arithmetic; when
`value = 0` the subtraction underflows to `2 ^ 32 - 1`. -/
def SimpleSemaphore.setMaxValue (s : SimpleSemaphore) : SimpleSemaphore :=
  { s with maxValue := u32pred s.value }

/-- One admission attempt of `SimpleSemaphore.acquire` (posix_aio.pyx
140-148): when `value >= max_value` the caller keeps yielding (state is
unchanged and the attempt does not admit); otherwise `value += 1` and the
caller is admitted.  The returned flag reports whether admission happened. -/
def SimpleSemaphore.acquireStep (s : SimpleSemaphore) : Bool × SimpleSemaphore :=
  if s.value ≥ s.maxValue then (false, s)
  else (true, { s with value := s.value + 1 })

/-- The three kinds of semaphore events an interleaving of operations can
produce: an admission attempt, a release, and a ratchet
(`set_max_value`). -/
inductive SemEvent
  | acq
  | rel
  | ratchet
deriving Repr, DecidableEq

/-- Effect of one semaphore event on the semaphore state. -/
def semStep : SemEvent → SimpleSemaphore → SimpleSemaphore
  | SemEvent.acq, s => (s.acquireStep).2
  | SemEvent.rel, s => s.release
  | SemEvent.ratchet, s => s.setMaxValue

/-- Run a whole event trace against the semaphore. -/
def semRun : List SemEvent → SimpleSemaphore → SimpleSemaphore
  | [], s => s
  | e :: es, s => semRun es (semStep e s)

/-- Outcome of one `aio_read`/`aio_write`/`aio_fsync` submission attempt in
`AIOOperation.__await__` (posix_aio.pyx 324-340): queued successfully,
rejected with `EINVAL` (the error string compared at line 335, treated as
the facility's resource-exhaustion signal), or failed with another errno. -/
inductive SubmitOutcome
  | ok
  | einval
  | fatal (code : Nat)
deriving Repr, DecidableEq

/-- The blocking re-acquire inside the retry loop (`yield from
semaphore.acquire()`, posix_aio.pyx 338), resolved in the single-actor
model: it admits immediately when `value < max_value` and otherwise stays
blocked forever (`none`), because no other task is left to release. -/
def acquireWait (s : SimpleSemaphore) : Option SimpleSemaphore :=
  if s.value < s.maxValue then some { s with value := s.value + 1 } else none

/-- The submit-retry loop of `AIOOperation.__await__` (posix_aio.pyx
324-340).  Each element of the outcome list is the result of one
submission attempt: on success the loop breaks, on a fatal errno the
error is re-raised to the caller, and on `EINVAL` the operation releases
its slot, ratchets the ceiling down (`set_max_value`), re-acquires and
retries.  Returns `none` when the re-acquire blocks with no other task
to unblock it.  `submitAttempt` is one iteration of the loop body
(posix_aio.pyx 325-340), with `retry` the continuation taken after a
successful re-acquire; `submitLoop` folds it over the outcome list. -/
def submitAttempt (o : SubmitOutcome) (s : SimpleSemaphore)
    (retry : SimpleSemaphore → Option (Except Nat Unit × SimpleSemaphore)) :
    Option (Except Nat Unit × SimpleSemaphore) :=
  match o with
  | SubmitOutcome.ok => some (Except.ok (), s)
  | SubmitOutcome.fatal c => some (Except.error c, s)
  | SubmitOutcome.einval =>
    match acquireWait (s.release.setMaxValue) with
    | some s' => retry s'
    | none => none

def submitLoop : List SubmitOutcome → SimpleSemaphore → Option (Except Nat Unit × SimpleSemaphore)
  | [], s => some (Except.ok (), s)
  | o :: rest, s => submitAttempt o s (submitLoop rest)

/-- The ratchet pair executed on an `EINVAL` rejection (posix_aio.pyx
336-337): `semaphore.release()` followed by `semaphore.set_max_value()`. -/
def ratchetDown (s : SimpleSemaphore) : SimpleSemaphore :=
  s.release.setMaxValue

/-- Unfolding lemma: an `EINVAL` retry whose re-acquire admits into state
`t'` continues the loop from `t'`. -/
theorem submitLoop_einval_step (rest : List SubmitOutcome) (t t' : SimpleSemaphore)
    (hA : acquireWait (t.release.setMaxValue) = some t') :
    submitLoop (SubmitOutcome.einval :: rest) t = submitLoop rest t' := by
  have h1 : submitLoop (SubmitOutcome.einval :: rest) t =
      submitAttempt SubmitOutcome.einval t (submitLoop rest) := rfl
  rw [h1, submitAttempt, hA]

/-- Unfolding lemma: an `EINVAL` retry whose re-acquire stays blocked
yields no result. -/
theorem submitLoop_einval_blocked (rest : List SubmitOutcome) (t : SimpleSemaphore)
    (hA : acquireWait (t.release.setMaxValue) = none) :
    submitLoop (SubmitOutcome.einval :: rest) t = none := by
  have h1 : submitLoop (SubmitOutcome.einval :: rest) t =
      submitAttempt SubmitOutcome.einval t (submitLoop rest) := rfl
  rw [h1, submitAttempt, hA]

/-- C2 counterexample.  The claim asserts `in_flight <= max_in_flight` at
every point outside the admission/release critical section.  Trace: a
semaphore with ceiling 2 admits two operations; the first submission is
rejected, so that operation releases its slot and ratchets
(`release; set_max_value`).  The resulting rest state has
`value = 1 > max_value = 0` while the second operation is still in
flight, refuting the invariant. -/
theorem semaphore_ceiling_violation :
    semRun [SemEvent.acq, SemEvent.acq, SemEvent.rel, SemEvent.ratchet] ⟨0, 2⟩ =
      ({ value := 1, maxValue := 0 } : SimpleSemaphore) ∧
    ¬ (1 : Nat) ≤ 0 := by
  decide

/-- C2 (amended).  `SimpleSemaphore` guarantees: `release` on a zero count
is a no-op; an admission happens only while `value < max_value`; an
admission attempt never pushes `value` above the current ceiling; and in
any interleaving free of ratchet steps the invariant
`value <= max_value` is preserved.  (After a ratchet-down, already
admitted operations can leave `value` above the new ceiling until they
release.) -/
theorem semaphore_invariants (s : SimpleSemaphore) (tr : List SemEvent) :
    (s.value = 0 → s.release = s) ∧
    ((s.acquireStep).1 = true → s.value < s.maxValue) ∧
    (s.value ≤ s.maxValue → (s.acquireStep).2.value ≤ s.maxValue) ∧
    ((∀ e ∈ tr, e ≠ SemEvent.ratchet) → s.value ≤ s.maxValue →
      (semRun tr s).value ≤ (semRun tr s).maxValue) := by
  refine ⟨?_, ?_, ?_, ?_⟩
  · intro h0
    simp [SimpleSemaphore.release, h0]
  · intro hadm
    by_contra hlt
    simp [SimpleSemaphore.acquireStep, Nat.le_of_not_lt hlt] at hadm
  · intro hle
    by_cases h : s.value ≥ s.maxValue
    · simp [SimpleSemaphore.acquireStep, h]
      exact hle
    · simp [SimpleSemaphore.acquireStep, h]
      omega
  · induction tr generalizing s with
    | nil => intro _ hle; exact hle
    | cons e es ih =>
      intro hnr hle
      have hnr' : ∀ x ∈ es, x ≠ SemEvent.ratchet := fun x hx => hnr x (List.mem_cons_of_mem _ hx)
      have he : e ≠ SemEvent.ratchet := hnr e (List.mem_cons_self _ _)
      have hstep : (semStep e s).value ≤ (semStep e s).maxValue := by
        cases e with
        | acq =>
          by_cases h : s.value ≥ s.maxValue
          · simpa [semStep, SimpleSemaphore.acquireStep, h] using hle
          · simp [semStep, SimpleSemaphore.acquireStep, h]
            omega
        | rel =>
          by_cases h : s.value > 0
          · simp [semStep, SimpleSemaphore.release, h]
            omega
          · simpa [semStep, SimpleSemaphore.release, h] using hle
        | ratchet => exact absurd rfl he
      exact ih (semStep e s) hnr' hstep

/-- Witness for `semaphore_invariants` at concrete inputs. -/
theorem semaphore_invariants_witness :
    (SimpleSemaphore.release ⟨0, 5⟩ = ⟨0, 5⟩) ∧
    (semRun [SemEvent.acq] ⟨0, 2⟩).value ≤ (semRun [SemEvent.acq] ⟨0, 2⟩).maxValue := by
  refine ⟨(semaphore_invariants ⟨0, 5⟩ []).1 rfl, ?_⟩
  exact (semaphore_invariants ⟨0, 2⟩ [SemEvent.acq]).2.2.2 (by decide) (by decide)

/-- C3 counterexample.  The claim asserts the ceiling is set to
`in_flight - 1` and thereafter only ever decreases.  A single admitted
operation whose submission is rejected first releases its slot
(`value` drops to 0) and then ratchets: the `uint32_t` subtraction
`0 - 1` underflows, so the ceiling jumps from 8 up to `2 ^ 32 - 1` —
it increases. -/
theorem ratchet_underflow_raises_ceiling :
    semRun [SemEvent.acq, SemEvent.rel, SemEvent.ratchet] ⟨0, 8⟩ =
      ({ value := 0, maxValue := 4294967295 } : SimpleSemaphore) ∧
    8 < 4294967295 := by
  constructor
  · rfl
  · decide

/-- C3 (amended).  On an `EINVAL` rejection the operation releases its
slot and ratchets: when at least one other operation is still admitted
(`2 ≤ value` before the pair, with the pre-state satisfying the
semaphore invariant) the new ceiling is `value - 2` and is strictly
lower than the old one; the fatal branch re-raises the errno; and a
retry sequence of `EINVAL` rejections that ends in a successful
submission surfaces no error to the caller. -/
theorem ratchet_retry_behavior (s t : SimpleSemaphore) (n : Nat) (c : Nat)
    (rest : List SubmitOutcome) (r : Except Nat Unit × SimpleSemaphore)
    (h2 : 2 ≤ s.value) (hinv : s.value ≤ s.maxValue) :
    ((ratchetDown s).maxValue = s.value - 2 ∧ (ratchetDown s).maxValue < s.maxValue) ∧
    (submitLoop (SubmitOutcome.fatal c :: rest) t = some (Except.error c, t)) ∧
    (submitLoop (List.replicate n SubmitOutcome.einval ++ [SubmitOutcome.ok]) t = some r →
      r.1 = Except.ok ()) := by
  refine ⟨?_, ?_, ?_⟩
  · have hvpos : 0 < s.value := by omega
    have hrel : s.release = { s with value := s.value - 1 } := by
      simp [SimpleSemaphore.release, hvpos]
    have hpd : u32pred (s.value - 1) = s.value - 2 := by
      have hne : s.value - 1 ≠ 0 := by omega
      simp [u32pred, hne]
      omega
    constructor
    · simp [ratchetDown, hrel, SimpleSemaphore.setMaxValue, hpd]
    · simp [ratchetDown, hrel, SimpleSemaphore.setMaxValue, hpd]
      omega
  · rfl
  · induction n generalizing t with
    | zero =>
      intro h
      rw [List.replicate_zero, List.nil_append] at h
      have hok : submitLoop [SubmitOutcome.ok] t = some (Except.ok (), t) := rfl
      rw [hok] at h
      injection h with h'
      rw [← h']
    | succ k ih =>
      intro h
      rw [List.replicate_succ, List.cons_append] at h
      cases hA : acquireWait ((t.release).setMaxValue) with
      | none =>
        rw [submitLoop_einval_blocked _ _ hA] at h
        exact Option.noConfusion h
      | some t' =>
        rw [submitLoop_einval_step _ _ _ hA] at h
        exact ih t' h

/-- Witness for `ratchet_retry_behavior` at concrete inputs. -/
theorem ratchet_retry_behavior_witness :
    2 ≤ (5 : Nat) ∧ (5 : Nat) ≤ 9 ∧
    ((ratchetDown ⟨5, 9⟩).maxValue = 3 ∧ (ratchetDown ⟨5, 9⟩).maxValue < 9) ∧
    (submitLoop [SubmitOutcome.fatal 9] ⟨1, 8⟩ = some (Except.error 9, ⟨1, 8⟩)) := by
  have h := ratchet_retry_behavior ⟨5, 9⟩ ⟨1, 8⟩ 1 9 []
    ((Except.ok () : Except Nat Unit), ⟨1, 4294967295⟩)
    (by decide) (by decide)
  refine ⟨by decide, by decide, ?_, h.2.1⟩
  simpa using h.1

/-- The AIO opcodes (`LIO_READ`, `LIO_WRITE`, `LIO_NOP` from `<aio.h>`). -/
inductive Opcode
  | ioRead
  | ioWrite
  | ioNop
deriving Repr, DecidableEq

/-- The state constants of `AIOOperation` in posix_aio.pyx (lines 72-77):
`AIO_OP_INIT`, `AIO_OP_RUN`, `AIO_OP_DONE`, `AIO_OP_CLOSED`. -/
inductive OpState
  | opInit
  | opRun
  | opDone
  | opClosed
deriving Repr, DecidableEq

/-- The errors the head of `__await__` can raise. -/
inductive AwaitErr
  | alreadyDone
  | alreadyRunning
deriving Repr, DecidableEq

/-- The state guard at the head of `AIOOperation.__await__` (posix_aio.pyx
315-321): `done()` → RuntimeError "Operation already done"; `is_running()`
→ RuntimeError "Operation already in progress"; any other state (INIT —
but also CLOSED, which is not checked) is moved to RUN. -/
def awaitGuard : OpState → Except AwaitErr OpState
  | OpState.opDone => Except.error AwaitErr.alreadyDone
  | OpState.opRun => Except.error AwaitErr.alreadyRunning
  | _ => Except.ok OpState.opRun

/-- One awaited execution of `__await__` on the success path: the guard
runs first; if it errors, nothing is submitted to the facility (the
submit loop at 324-340 is unreached).  Otherwise the state passes
through RUN (line 321) and reaches DONE (line 373) after exactly one
successful submission.  Returns the list of states traversed after the
guard, paired with the number of submissions issued. -/
def awaitRun (s : OpState) : Except AwaitErr (List OpState) × Nat :=
  match awaitGuard s with
  | Except.error e => (Except.error e, 0)
  | Except.ok s1 => (Except.ok [s1, OpState.opDone], 1)

/-- An operation's state together with how many times its native storage
(`self.__buffer` and `self.cb`) has been freed. -/
structure OpResource where
  state : OpState
  frees : Nat
deriving Repr, DecidableEq

/-- `AIOOperation.close` (posix_aio.pyx 394-405): a no-op when the state
is already CLOSED; otherwise set CLOSED and free the buffer and control
block (counted once). -/
def posixClose (r : OpResource) : OpResource :=
  if r.state = OpState.opClosed then r
  else { state := OpState.opClosed, frees := r.frees + 1 }

/-- `n` successive calls of `posixClose`. -/
def iterPosixClose : Nat → OpResource → OpResource
  | 0, r => r
  | n + 1, r => iterPosixClose n (posixClose r)

/-- The closing state of the aio.pyx generation of `AIOOperation`:
`_closed`, plus how many times `free(...)` has run on its storage. -/
structure PyAioOp where
  closed : Bool
  frees : Nat
deriving Repr, DecidableEq

/-- `AIOOperation.close` in aio.pyx (lines 229-233): `_check_closed()`
raises RuntimeError when `_closed` is already set; otherwise it sets
`_closed` and frees `aio_buf` and the control block (counted once). -/
def aioPyxClose (p : PyAioOp) : Except Unit PyAioOp :=
  if p.closed then Except.error ()
  else Except.ok { closed := true, frees := p.frees + 1 }

/-- C5 counterexample.  The claim says `Closed` is terminal (reachable at
most once, with the state only ever moving forward).  But the guard in
`__await__` checks only DONE and RUN, so awaiting an operation that was
already closed is admitted and sets the state back to RUN
(posix_aio.pyx line 321) — `Closed` is not terminal under `__await__`,
and the transition `Closed → Running` moves backward. -/
theorem await_admits_closed :
    awaitGuard OpState.opClosed = Except.ok OpState.opRun ∧
    OpState.opRun ≠ OpState.opClosed :=
  ⟨rfl, by decide⟩

/-- C5 (amended).  The state machine moves forward Init → Running → Done
on the awaited success path with exactly one submission; awaiting while
Running fails with the already-running error and awaiting after Done
fails with the already-done error, in both cases issuing no submission;
`close` sends any state to Closed and is idempotent.  However `__await__`
does not guard against Closed: awaiting a closed operation is admitted
and re-enters Running. -/
theorem op_state_machine (r : OpResource) :
    (awaitRun OpState.opInit = (Except.ok [OpState.opRun, OpState.opDone], 1)) ∧
    (awaitRun OpState.opRun = (Except.error AwaitErr.alreadyRunning, 0)) ∧
    (awaitRun OpState.opDone = (Except.error AwaitErr.alreadyDone, 0)) ∧
    (awaitRun OpState.opClosed = (Except.ok [OpState.opRun, OpState.opDone], 1)) ∧
    ((posixClose r).state = OpState.opClosed ∧ posixClose (posixClose r) = posixClose r) := by
  refine ⟨rfl, rfl, rfl, rfl, ?_, ?_⟩
  · by_cases h : r.state = OpState.opClosed <;> simp [posixClose, h]
  · by_cases h : r.state = OpState.opClosed <;> simp [posixClose, h]

/-- C8 counterexample.  The claim says a second `close()` is a no-op that
raises no error for every Operation.  In the aio.pyx generation
(lines 229-233) `close` begins with `_check_closed()`, which raises
RuntimeError when the operation is already closed: closing twice raises
instead of being a no-op. -/
theorem double_close_raises :
    aioPyxClose { closed := false, frees := 0 } = Except.ok { closed := true, frees := 1 } ∧
    aioPyxClose { closed := true, frees := 1 } = Except.error () :=
  ⟨rfl, rfl⟩

/-- C8 (amended).  In posix_aio.pyx, `close` is idempotent: a second call
is a no-op and, starting from a fresh (never-closed, never-freed)
operation, any positive number of `close` calls frees the native storage
exactly once.  In aio.pyx, a second `close` raises RuntimeError (from
`_check_closed`) rather than silently returning, and the error path
frees nothing, so storage is still freed exactly once. -/
theorem close_semantics (r : OpResource) (p : PyAioOp) (n : Nat)
    (hfresh : r.state ≠ OpState.opClosed) (hf0 : r.frees = 0) (hn : 1 ≤ n) :
    posixClose (posixClose r) = posixClose r ∧
    (iterPosixClose n r).frees = 1 ∧
    (p.closed = false → aioPyxClose p = Except.ok { closed := true, frees := p.frees + 1 }) ∧
    (p.closed = true → aioPyxClose p = Except.error ()) := by
  refine ⟨?_, ?_, ?_, ?_⟩
  · by_cases h : r.state = OpState.opClosed <;> simp [posixClose, h]
  · obtain ⟨m, rfl⟩ : ∃ m, n = m + 1 := ⟨n - 1, by omega⟩
    have hstep : posixClose r = { state := OpState.opClosed, frees := 1 } := by
      simp [posixClose, hfresh, hf0]
    have hclosed : ∀ k, iterPosixClose k { state := OpState.opClosed, frees := 1 } =
        { state := OpState.opClosed, frees := 1 } := by
      intro k
      induction k with
      | zero => rfl
      | succ j ih => simpa [iterPosixClose, posixClose] using ih
    simp [iterPosixClose, hstep, hclosed]
  · intro h
    simp [aioPyxClose, h]
  · intro h
    simp [aioPyxClose, h]

/-- Witness for `close_semantics` at concrete inputs. -/
theorem close_semantics_witness :
    ({ state := OpState.opInit, frees := 0 } : OpResource).state ≠ OpState.opClosed ∧
    ({ state := OpState.opInit, frees := 0 } : OpResource).frees = 0 ∧ 1 ≤ 2 ∧
    (iterPosixClose 2 { state := OpState.opInit, frees := 0 }).frees = 1 := by
  refine ⟨by decide, by decide, by decide, ?_⟩
  exact (close_semantics { state := OpState.opInit, frees := 0 } { closed := false, frees := 0 } 2
    (by decide) (by decide) (by decide)).2.1

/-- A typed completion error: the errno-style code together with a
human-readable reason string (posix_aio.pyx raises
`SystemError(errorcode[code], os.strerror(code))`). -/
structure SysErr where
  code : Nat
  reason : String
deriving Repr, DecidableEq

/-- Model of the `os.strerror` table for the errnos that appear in the
AIO error dictionaries of posix_aio.pyx (unlisted codes get a generic
message). -/
def strErr (code : Nat) : String :=
  if code = 9 then "Bad file descriptor"
  else if code = 11 then "Resource temporarily unavailable"
  else if code = 22 then "Invalid argument"
  else "Input or output error"

/-- The fields of a posix_aio.pyx `AIOOperation` relevant to completion:
`nbytes` is the requested transfer length `cb.aio_nbytes`, and `buf` the
contents of `self.__buffer`, which `__cinit__` (line 194) allocates with
`calloc(nbytes + 1, sizeof(char))`, i.e. `buf.length = nbytes + 1`. -/
structure PosixOp where
  nbytes : Nat
  buf : List Nat
deriving Repr, DecidableEq

/-- The tail of `AIOOperation.__await__` (posix_aio.pyx 375-380) combined
with the `buffer` property (211-216): `rresult = aio_return(cb)`; when
negative, `SystemError(errorcode[-rresult], os.strerror(-rresult))` is
raised; otherwise `self.size = rresult` and the awaited value is
`self.__buffer[:self.size]`. -/
def finishAwait (op : PosixOp) (rresult : Int) : Except SysErr (List Nat) :=
  if rresult < 0 then Except.error ⟨(-rresult).toNat, strErr (-rresult).toNat⟩
  else Except.ok (op.buf.take rresult.toNat)

/-- C4.  For a completed Read whose facility reported `n` transferred
bytes with `0 ≤ n ≤ nbytes`, the awaited result is exactly the first
`n` bytes of the buffer's valid region — length `n`, strictly less than
the allocated capacity `nbytes + 1`, never the whole capacity; and a
negative `aio_return` result raises a typed error carrying the
facility's error code and its human-readable reason instead of a
payload. -/
theorem read_result_length (op : PosixOp) (n : Nat) (e : Int)
    (hb : op.buf.length = op.nbytes + 1) (hn : n ≤ op.nbytes) (he : e < 0) :
    finishAwait op (Int.ofNat n) = Except.ok (op.buf.take n) ∧
    (op.buf.take n).length = n ∧
    n < op.buf.length ∧
    finishAwait op e = Except.error ⟨(-e).toNat, strErr (-e).toNat⟩ := by
  refine ⟨?_, ?_, ?_, ?_⟩
  · have hnonneg : ¬ (Int.ofNat n < 0) := by
      rw [Int.not_lt]
      exact Int.ofNat_nonneg n
    simp [finishAwait, hnonneg]
  · rw [List.length_take, hb]
    omega
  · omega
  · simp [finishAwait, he]

/-- Witness for `read_result_length` at concrete inputs. -/
theorem read_result_length_witness :
    ([1, 2, 3, 4] : List Nat).length = 3 + 1 ∧ 2 ≤ 3 ∧ (-9 : Int) < 0 ∧
    (finishAwait ⟨3, [1, 2, 3, 4]⟩ (Int.ofNat 2) = Except.ok [1, 2] ∧
      ([1, 2, 3, 4] : List Nat).take 2 = [1, 2] ∧
      finishAwait ⟨3, [1, 2, 3, 4]⟩ (-9) = Except.error ⟨9, "Bad file descriptor"⟩) := by
  have h := read_result_length ⟨3, [1, 2, 3, 4]⟩ 2 (-9) (by decide) (by decide) (by decide)
  exact ⟨by decide, by decide, by decide, by simpa using h.1, by decide, by simpa using h.2.2.2⟩

/-- The errors of the posix_aio.pyx buffer setter. -/
inductive SetBufErr
  | typeErr
  | invalidState
  | dataTooLong
deriving Repr, DecidableEq

/-- The posix_aio.pyx buffer setter (lines 218-236): only `IO_WRITE`
operations accept data (TypeError otherwise); a done operation is
rejected (RuntimeError); `len(data) > cb.aio_nbytes` raises ValueError
"Data too long"; otherwise `memcpy` copies exactly `data_len` bytes into
the buffer and both `aio_nbytes` and `size` shrink to `data_len`.
Returns (bytes copied, new `aio_nbytes`). -/
def posixSetBuffer (opcode : Opcode) (isDone : Bool) (nbytes : Nat) (data : List Nat) :
    Except SetBufErr (Nat × Nat) :=
  if opcode ≠ Opcode.ioWrite then Except.error SetBufErr.typeErr
  else if isDone then Except.error SetBufErr.invalidState
  else if data.length > nbytes then Except.error SetBufErr.dataTooLong
  else Except.ok (data.length, data.length)

/-- The aio.pyx buffer setter (lines 208-211): after `_check_closed()` it
runs `memcpy(self._cb.aio_buf, data, len(data))` with no length check at
all, into a buffer whose allocated capacity is `_buffer_size = nbytes`
(line 113).  Returns the number of bytes copied. -/
def oldSetBuffer (closed : Bool) (data : List Nat) : Except Unit Nat :=
  if closed then Except.error () else Except.ok data.length

/-- C6.  posix_aio.pyx enforces the bound: oversized data is rejected
with the "Data too long" error and data of length at most `nbytes` is
accepted with exactly `len(data)` bytes copied.  But the aio.pyx setter
performs no length check: for an operation of requested length 1
(capacity 1 byte), caller data of length 2 is accepted and both bytes
are copied — one byte lands beyond the allocated capacity, with no
buffer-overflow error raised. -/
theorem write_buffer_overflow :
    posixSetBuffer Opcode.ioWrite false 1 [65, 66] = Except.error SetBufErr.dataTooLong ∧
    posixSetBuffer Opcode.ioWrite false 2 [65, 66] = Except.ok (2, 2) ∧
    oldSetBuffer false [65, 66] = Except.ok 2 ∧
    1 < 2 :=
  ⟨rfl, rfl, rfl, by decide⟩

/-- What one check of the SIGEV_NONE polling loop does (posix_aio.pyx
357-371) with the `aio_error` return `status` and the thread `errno`:
`0` → break out of the loop (completion); `-1` → raise
`SystemError(errorcode[errno], strerror(errno))`; any other value
(EINPROGRESS, but also any positive completion error status) → yield
and re-check. -/
inductive PollAction
  | complete
  | raiseCode (c : Nat)
  | yieldAgain
deriving Repr, DecidableEq

def pollIteration (status : Int) (errnoVal : Nat) : PollAction :=
  if status = 0 then PollAction.complete
  else if status = -1 then PollAction.raiseCode errnoVal
  else PollAction.yieldAgain

/-- The whole polling path once the operation has completed, so that
`aio_error` stably returns `status`: `some` observable if the loop exits
within `fuel` checks, `none` if it is still yielding after `fuel`
checks. -/
def pollPath (fuel : Nat) (status : Int) (errnoVal : Nat) : Option (Except Nat Unit) :=
  match fuel with
  | 0 => none
  | f + 1 =>
    match pollIteration status errnoVal with
    | PollAction.complete => some (Except.ok ())
    | PollAction.raiseCode c => some (Except.error c)
    | PollAction.yieldAgain => pollPath f status errnoVal

/-- The edge-triggered path (SIGEV_THREAD, posix_aio.pyx 343-354): after
the completion event fires, `aio_error` is consulted once; a non-zero
`status` raises `SystemError(errorcode[status], strerror(status))`
while the state is still RUN — the `AIO_OP_DONE` assignment at line 373
is not reached; a zero status proceeds to DONE.  Returns the observable
paired with whether the Done transition happened. -/
def edgePath (status : Int) : Except Nat Unit × Bool :=
  if status ≠ 0 then (Except.error status.toNat, false)
  else (Except.ok (), true)

/-- C7.  On success (`aio_error` settles to 0) both completion strategies
agree: one Done transition, a payload, no error.  But when the facility
completes the operation with a positive error status (here EBADF = 9),
the strategies diverge: the edge-triggered path raises the typed error
immediately — with no Done transition at all — while the polling path
classifies status 9 as still-pending and yields forever, producing
neither a Done transition nor an error after any number of checks. -/
theorem completion_strategy_divergence :
    edgePath 9 = (Except.error 9, false) ∧
    (∀ fuel : Nat, pollPath fuel 9 0 = none) ∧
    edgePath 0 = (Except.ok (), true) ∧
    pollPath 1 0 0 = some (Except.ok ()) := by
  refine ⟨rfl, ?_, rfl, rfl⟩
  intro fuel
  induction fuel with
  | zero => rfl
  | succ f ih =>
    have hstep : pollIteration 9 0 = PollAction.yieldAgain := rfl
    calc pollPath (f + 1) 9 0 = pollPath f 9 0 := by rw [pollPath, hstep]
      _ = none := ih

/-- An operation as constructed by the `AIOFile` front ends: opcode,
file offset, requested length (`aio_nbytes`), and the write payload
already copied into its buffer (empty for reads). -/
structure BuiltOp where
  opcode : Opcode
  offset : Nat
  nbytes : Nat
  payload : List Nat
deriving Repr, DecidableEq

/-- aio.pyx `AIOFile.write` (lines 71-81): it constructs
`AIOOperation(LIO_READ, self, offset, len(data), priority)` — note the
`LIO_READ` opcode — and then sets `op.buffer = bytes_data` (the aio.pyx
setter, modelled in `oldSetBuffer`, copies without an opcode check). -/
def writeOpAioPyx (data : List Nat) (offset : Nat) : BuiltOp :=
  { opcode := Opcode.ioRead, offset := offset, nbytes := data.length, payload := data }

/-- _aio.pyx `AIOFile.write` (lines 153-163): it constructs
`AIOOperation(LIO_WRITE, fileno, offset, len(data), priority)` and sets
its buffer to the data. -/
def writeOpUnderscoreAio (data : List Nat) (offset : Nat) : BuiltOp :=
  { opcode := Opcode.ioWrite, offset := offset, nbytes := data.length, payload := data }

/-- `AIOFile.read` under the hood: a `LIO_READ` operation of the given
requested length at the given offset (aio.pyx line 69, _aio.pyx
line 151). -/
def readOp (size offset : Nat) : BuiltOp :=
  { opcode := Opcode.ioRead, offset := offset, nbytes := size, payload := [] }

/-- The external POSIX AIO facility acting on a regular file modelled as
a byte list (offsets within the file): `aio_read` returns up to `nbytes`
bytes from `offset` leaving the file unchanged, `aio_write` stores the
first `nbytes` payload bytes at `offset`, and `aio_fsync` transfers
nothing.  Returns (file afterwards, awaited byte payload). -/
def performOp (file : List Nat) (op : BuiltOp) : List Nat × List Nat :=
  match op.opcode with
  | Opcode.ioRead => (file, (file.drop op.offset).take op.nbytes)
  | Opcode.ioWrite =>
    let w := op.payload.take op.nbytes
    (file.take op.offset ++ w ++ file.drop (op.offset + w.length), w)
  | Opcode.ioNop => (file, [])

/-- Awaiting the operation returned by `AIOFile.write(data, offset)`
(built by `mkWrite`) and then awaiting the operation returned by
`AIOFile.read(len(data), offset)`: the byte payload of the final read. -/
def writeReadRoundTrip (mkWrite : List Nat → Nat → BuiltOp)
    (file data : List Nat) (offset : Nat) : List Nat :=
  let afterWrite := (performOp file (mkWrite data offset)).1
  (performOp afterWrite (readOp data.length offset)).2

/-- C1.  The round-trip fails in the aio.pyx generation: over a one-byte
file containing `0x00`, `write(b"A", 0)` followed by `read(1, 0)`
returns `[0]`, not the written `[65]`, because `AIOFile.write`
constructs its operation with opcode `LIO_READ` (aio.pyx line 79), so
awaiting it performs `aio_read` and never modifies the file.  With the
`LIO_WRITE` opcode used by _aio.pyx (line 161) the same round trip
returns the written bytes. -/
theorem write_read_opcode_bug :
    writeReadRoundTrip writeOpAioPyx [0] [65] 0 = [0] ∧
    ([0] : List Nat) ≠ [65] ∧
    (writeOpAioPyx [65] 0).opcode = Opcode.ioRead ∧
    writeReadRoundTrip writeOpUnderscoreAio [0] [65] 0 = [65] := by
  refine ⟨rfl, by decide, rfl, rfl⟩

/-- `AIOFile.read` size handling (aio.pyx 60-69, _aio.pyx 142-151):
`size < -1` raises ValueError before any operation is constructed;
`size == -1` substitutes the file size reported by `fstat` at call
time; otherwise `size` is used as the requested length.  `fileSize`
stands for `fstat(fd).st_size`. -/
def aioFileRead (size : Int) (offset : Nat) (fileSize : Nat) : Except Unit BuiltOp :=
  if size < -1 then Except.error ()
  else if size = -1 then Except.ok (readOp fileSize offset)
  else Except.ok (readOp size.toNat offset)

/-- C10.  `AIOFile.read(size, offset)`: `size < -1` fails with the value
error and no operation is built; `size = -1` builds a Read whose
requested length is the fstat-reported file size; any `size ≥ 0` builds
a Read whose requested length is `size` itself. -/
theorem read_size_handling (size : Int) (offset fileSize : Nat) :
    (size < -1 → aioFileRead size offset fileSize = Except.error ()) ∧
    (size = -1 → aioFileRead size offset fileSize = Except.ok (readOp fileSize offset)) ∧
    (0 ≤ size → aioFileRead size offset fileSize = Except.ok (readOp size.toNat offset)) := by
  refine ⟨?_, ?_, ?_⟩
  · intro h
    simp [aioFileRead, h]
  · intro h
    have hnot : ¬ size < -1 := by omega
    simp [aioFileRead, hnot, h]
  · intro h
    have hnot : ¬ size < -1 := by omega
    have hne : size ≠ -1 := by omega
    simp [aioFileRead, hnot, hne]

/-- Witness for `read_size_handling` at concrete inputs. -/
theorem read_size_handling_witness :
    ((-2 : Int) < -1 ∧ aioFileRead (-2) 0 10 = Except.error ()) ∧
    ((-1 : Int) = -1 ∧ aioFileRead (-1) 0 10 = Except.ok (readOp 10 0)) ∧
    ((0 : Int) ≤ 7 ∧ aioFileRead 7 3 10 = Except.ok (readOp 7 3)) := by
  refine ⟨⟨by decide, (read_size_handling (-2) 0 10).1 (by decide)⟩,
    ⟨rfl, (read_size_handling (-1) 0 10).2.1 rfl⟩,
    ⟨by decide, ?_⟩⟩
  have h := (read_size_handling 7 3 10).2.2 (by decide)
  simpa using h

/-- Modelled from the spec: the LineReader implementation itself is not
among the source files available here (only the Cython AIO backends
are), so its scan is rendered from §4.6 of the specification.  This is
the byte-wise prefix test used by the scan — does `sep` occur at the
head of `xs`? -/
def leadsWith : List Nat → List Nat → Bool
  | [], _ => true
  | _ :: _, [] => false
  | a :: s, b :: xs => a == b && leadsWith s xs

/-- Modelled from the spec (§4.6): index of the first occurrence of
`sep` inside `xs` (the position `p` such that `sep` leads `xs.drop p`),
or `none` when `sep` does not occur. -/
def findSep (sep : List Nat) : List Nat → Option Nat
  | [] => if leadsWith sep [] then some 0 else none
  | x :: t =>
    if leadsWith sep (x :: t) then some 0
    else (findSep sep t).map (fun n => n + 1)

/-- Modelled from the spec (§4.6): take the first line off `s` — up to
and including the first separator occurrence; when no occurrence
exists the whole remainder is the line.  Returns (line, rest). -/
def splitFirst (sep s : List Nat) : List Nat × List Nat :=
  match findSep sep s with
  | some p => (s.take (p + sep.length), s.drop (p + sep.length))
  | none => (s, [])

/-- Modelled from the spec (§4.6/§8): the chunk-free reference splitting
of a whole content into lines on `sep`; each line keeps its separator
and a final tail-less line is kept as well.  Fuel-driven; `lineSplit`
supplies sufficient fuel. -/
def lineSplitFuel (sep : List Nat) : Nat → List Nat → List (List Nat)
  | 0, _ => []
  | f + 1, s =>
    if s = [] then []
    else (splitFirst sep s).1 :: lineSplitFuel sep f (splitFirst sep s).2

def lineSplit (sep content : List Nat) : List (List Nat) :=
  lineSplitFuel sep content.length content

/-- Modelled from the spec (§4.6): one `readline` of the LineReader over
a ChunkedReader (§4.5).  `carry` holds the bytes read but not yet
yielded, `remaining` the unread suffix of the file.  The scan looks for
the first separator occurrence in the whole carry; when none is found
and data remains, the next chunk of `c` bytes is pulled into the carry
and the grown carry is rescanned (carry-plus-new-bytes, never the new
chunk alone); on exhaustion the whole carry is flushed as the final
line.  Returns (line, new carry, new remaining). -/
def readlineFuel (sep : List Nat) (c : Nat) : Nat → List Nat → List Nat → List Nat × List Nat × List Nat
  | 0, carry, remaining => (carry ++ remaining, [], [])
  | f + 1, carry, remaining =>
    match findSep sep carry with
    | some p => (carry.take (p + sep.length), carry.drop (p + sep.length), remaining)
    | none =>
      if remaining = [] then (carry, [], [])
      else readlineFuel sep c f (carry ++ remaining.take c) (remaining.drop c)

/-- Modelled from the spec (§4.6): iterating `readline` until
end-of-sequence, collecting the produced lines; the terminal empty
flush signals the end and is not yielded. -/
def lineReaderFuel (sep : List Nat) (c : Nat) : Nat → List Nat → List Nat → List (List Nat)
  | 0, _, _ => []
  | f + 1, carry, remaining =>
    if carry = [] ∧ remaining = [] then []
    else
      let r := readlineFuel sep c (remaining.length + 1) carry remaining
      r.1 :: lineReaderFuel sep c f r.2.1 r.2.2

/-- Modelled from the spec (§4.6): all lines the LineReader yields over
a file with the given byte content, chunk size `c` and separator
`sep`. -/
def lineReaderLines (sep : List Nat) (c : Nat) (content : List Nat) : List (List Nat) :=
  lineReaderFuel sep c (content.length + 1) [] content

/-- Concatenation of a list of lines back into one byte list. -/
def concatAll : List (List Nat) → List Nat
  | [] => []
  | l :: ls => l ++ concatAll ls

/-- Does `xs` end with `sep`? -/
def endsWithSep (sep xs : List Nat) : Bool :=
  decide (sep.length ≤ xs.length ∧ xs.drop (xs.length - sep.length) = sep)

/-- The last line of a produced line list (`[]` when there is none). -/
def lastLine : List (List Nat) → List Nat
  | [] => []
  | l :: t =>
    match t with
    | [] => l
    | _ :: _ => lastLine t

/-- A successful head match needs `sep` to fit inside `xs`. -/
theorem leadsWith_length (sep : List Nat) : ∀ xs, leadsWith sep xs = true → sep.length ≤ xs.length := by
  induction sep with
  | nil => intro xs _; simp
  | cons a s ih =>
    intro xs h
    cases xs with
    | nil => simp [leadsWith] at h
    | cons b t =>
      simp only [leadsWith, Bool.and_eq_true] at h
      simpa using ih t h.2

/-- Appending on the right cannot change a head match that is already
decided inside `xs`. -/
theorem leadsWith_append_of_le (sep : List Nat) :
    ∀ xs ys, sep.length ≤ xs.length → leadsWith sep (xs ++ ys) = leadsWith sep xs := by
  induction sep with
  | nil => intro xs ys _; simp [leadsWith]
  | cons a s ih =>
    intro xs ys h
    cases xs with
    | nil => simp at h
    | cons b t =>
      simp only [List.cons_append, leadsWith, List.append_eq]
      rw [ih t ys (by simpa using h)]

/-- A head match survives appending on the right. -/
theorem leadsWith_append_left (sep xs ys : List Nat) (h : leadsWith sep xs = true) :
    leadsWith sep (xs ++ ys) = true := by
  rw [leadsWith_append_of_le sep xs ys (leadsWith_length sep xs h)]
  exact h

/-- A head match of full length is an equality. -/
theorem leadsWith_eq_of_length (sep : List Nat) :
    ∀ xs, leadsWith sep xs = true → xs.length = sep.length → xs = sep := by
  induction sep with
  | nil => intro xs _ hlen; exact List.eq_nil_of_length_eq_zero hlen
  | cons a s ih =>
    intro xs h hlen
    cases xs with
    | nil => simp [leadsWith] at h
    | cons b t =>
      simp only [leadsWith, Bool.and_eq_true, beq_iff_eq] at h
      have := ih t h.2 (by simpa using hlen)
      rw [h.1, this]

/-- A found occurrence fits inside the scanned list. -/
theorem findSep_bound (sep : List Nat) :
    ∀ xs p, findSep sep xs = some p → p + sep.length ≤ xs.length := by
  intro xs
  induction xs with
  | nil =>
    intro p h
    simp only [findSep] at h
    by_cases hl : leadsWith sep [] = true
    · rw [if_pos hl] at h
      injection h with h'
      have := leadsWith_length sep [] hl
      simp at this
      simp [← h', this]
    · rw [if_neg hl] at h
      exact absurd h (by simp)
  | cons x t ih =>
    intro p h
    simp only [findSep] at h
    by_cases hl : leadsWith sep (x :: t) = true
    · rw [if_pos hl] at h
      injection h with h'
      have := leadsWith_length sep (x :: t) hl
      omega
    · rw [if_neg hl] at h
      cases hq : findSep sep t with
      | none => rw [hq] at h; exact absurd h (by simp)
      | some q =>
        rw [hq] at h
        have hp : q + 1 = p := by simpa using h
        have := ih q hq
        simp only [List.length_cons]
        omega

/-- The separator really occurs at a found index. -/
theorem findSep_leadsWith (sep : List Nat) :
    ∀ xs p, findSep sep xs = some p → leadsWith sep (xs.drop p) = true := by
  intro xs
  induction xs with
  | nil =>
    intro p h
    simp only [findSep] at h
    by_cases hl : leadsWith sep [] = true
    · rw [if_pos hl] at h
      injection h with h'
      rw [← h']
      exact hl
    · rw [if_neg hl] at h
      exact absurd h (by simp)
  | cons x t ih =>
    intro p h
    simp only [findSep] at h
    by_cases hl : leadsWith sep (x :: t) = true
    · rw [if_pos hl] at h
      injection h with h'
      rw [← h']
      exact hl
    · rw [if_neg hl] at h
      cases hq : findSep sep t with
      | none => rw [hq] at h; exact absurd h (by simp)
      | some q =>
        rw [hq] at h
        have hp : q + 1 = p := by simpa using h
        rw [← hp]
        simpa using ih q hq

/-- The first occurrence is stable under appending on the right: any
occurrence created by the extension would straddle the end of `xs` and
therefore lie strictly after the occurrence already found inside
`xs`. -/
theorem findSep_append (sep : List Nat) :
    ∀ xs ys p, findSep sep xs = some p → findSep sep (xs ++ ys) = some p := by
  intro xs
  induction xs with
  | nil =>
    intro ys p h
    simp only [findSep] at h
    by_cases hl : leadsWith sep [] = true
    · rw [if_pos hl] at h
      have hp : (0 : Nat) = p := by simpa using h
      have hsep : sep = [] := by
        cases sep with
        | nil => rfl
        | cons a s => simp [leadsWith] at hl
      subst hsep
      rw [← hp]
      cases ys with
      | nil => simp [findSep, leadsWith]
      | cons y t => simp [findSep, leadsWith]
    · rw [if_neg hl] at h
      exact absurd h (by simp)
  | cons x t ih =>
    intro ys p h
    simp only [findSep] at h
    by_cases hl : leadsWith sep (x :: t) = true
    · rw [if_pos hl] at h
      rw [List.cons_append]
      have hl' : leadsWith sep (x :: (t ++ ys)) = true := by
        have := leadsWith_append_left sep (x :: t) ys hl
        simpa using this
      simpa [findSep, hl'] using h
    · rw [if_neg hl] at h
      cases hq : findSep sep t with
      | none => rw [hq] at h; exact absurd h (by simp)
      | some q =>
        rw [hq] at h
        have hfit : sep.length ≤ (x :: t).length := by
          have := findSep_bound sep t q hq
          simp only [List.length_cons]
          omega
        have hl' : leadsWith sep ((x :: t) ++ ys) = false := by
          rw [leadsWith_append_of_le sep (x :: t) ys hfit]
          simpa using hl
        rw [List.cons_append]
        have hl'' : leadsWith sep (x :: (t ++ ys)) = false := by simpa using hl'
        have hstep : findSep sep (x :: (t ++ ys)) =
            (findSep sep (t ++ ys)).map (fun n => n + 1) := by
          simp [findSep, hl'']
        rw [hstep, ih ys q hq]
        simpa using h

/-- A split line and its rest concatenate back to the input. -/
theorem splitFirst_join (sep s : List Nat) :
    (splitFirst sep s).1 ++ (splitFirst sep s).2 = s := by
  unfold splitFirst
  cases h : findSep sep s with
  | some p => simp [List.take_append_drop]
  | none => simp

/-- Splitting a nonempty input on a nonempty separator strictly consumes
bytes. -/
theorem splitFirst_rest_lt (sep s : List Nat) (hsep : sep ≠ []) (hs : s ≠ []) :
    (splitFirst sep s).2.length < s.length := by
  unfold splitFirst
  cases h : findSep sep s with
  | some p =>
    have hk : 1 ≤ sep.length := by
      cases sep with
      | nil => exact absurd rfl hsep
      | cons a t => simp
    have hb := findSep_bound sep s p h
    have hslen : 1 ≤ s.length := by
      cases s with
      | nil => exact absurd rfl hs
      | cons a t => simp
    simp only [List.length_drop]
    omega
  | none =>
    have hslen : 0 < s.length := by
      cases s with
      | nil => exact absurd rfl hs
      | cons a t => simp
    simpa using hslen

/-- Splitting the empty content produces no lines regardless of fuel. -/
theorem lineSplitFuel_nil (sep : List Nat) (f : Nat) : lineSplitFuel sep f [] = [] := by
  cases f with
  | zero => rfl
  | succ g => simp [lineSplitFuel]

/-- Any two sufficient fuels give the same splitting. -/
theorem lineSplitFuel_congr (sep : List Nat) (hsep : sep ≠ []) :
    ∀ f g s, s.length ≤ f → s.length ≤ g → lineSplitFuel sep f s = lineSplitFuel sep g s := by
  intro f
  induction f with
  | zero =>
    intro g s hf _
    have : s = [] := List.eq_nil_of_length_eq_zero (by omega)
    subst this
    rw [lineSplitFuel_nil, lineSplitFuel_nil]
  | succ f' ih =>
    intro g s hf hg
    by_cases hs : s = []
    · subst hs
      rw [lineSplitFuel_nil, lineSplitFuel_nil]
    · have hpos : 1 ≤ s.length := by
        cases s with
        | nil => exact absurd rfl hs
        | cons a t => simp
      obtain ⟨g', rfl⟩ : ∃ g', g = g' + 1 := ⟨g - 1, by omega⟩
      have hrest := splitFirst_rest_lt sep s hsep hs
      simp only [lineSplitFuel, if_neg hs]
      rw [ih g' (splitFirst sep s).2 (by omega) (by omega)]

/-- Concatenating all produced lines reproduces the content exactly. -/
theorem concat_lineSplitFuel (sep : List Nat) (hsep : sep ≠ []) :
    ∀ f s, s.length ≤ f → concatAll (lineSplitFuel sep f s) = s := by
  intro f
  induction f with
  | zero =>
    intro s hf
    have : s = [] := List.eq_nil_of_length_eq_zero (by omega)
    subst this
    rfl
  | succ f' ih =>
    intro s hf
    by_cases hs : s = []
    · subst hs
      rw [lineSplitFuel_nil]
      rfl
    · have hrest := splitFirst_rest_lt sep s hsep hs
      simp only [lineSplitFuel, if_neg hs, concatAll]
      rw [ih (splitFirst sep s).2 (by omega)]
      exact splitFirst_join sep s

/-- One `readline` over the chunk stream returns exactly the first line
of the whole unconsumed content `carry ++ remaining`, and leaves exactly
its rest behind — for any chunk size `c ≥ 1`.  This is the
boundary-straddling property: growing the carry chunk by chunk and
rescanning finds the same first separator occurrence as a scan of the
whole content. -/
theorem readlineFuel_spec (sep : List Nat) (c : Nat) (hc : 1 ≤ c) :
    ∀ f carry remaining, remaining.length < f →
      (readlineFuel sep c f carry remaining).1 = (splitFirst sep (carry ++ remaining)).1 ∧
      (readlineFuel sep c f carry remaining).2.1 ++ (readlineFuel sep c f carry remaining).2.2 =
        (splitFirst sep (carry ++ remaining)).2 := by
  intro f
  induction f with
  | zero => intro carry remaining h; omega
  | succ f' ih =>
    intro carry remaining h
    cases hfind : findSep sep carry with
    | some p =>
      have hb := findSep_bound sep carry p hfind
      have hfa := findSep_append sep carry remaining p hfind
      constructor
      · simp only [readlineFuel, hfind]
        unfold splitFirst
        rw [hfa]
        exact (List.take_append_of_le_length hb).symm
      · simp only [readlineFuel, hfind]
        unfold splitFirst
        rw [hfa]
        exact (List.drop_append_of_le_length hb).symm
    | none =>
      by_cases hrem : remaining = []
      · subst hrem
        constructor
        · simp only [readlineFuel, hfind, if_pos rfl]
          simp [splitFirst, List.append_nil, hfind]
        · simp only [readlineFuel, hfind, if_pos rfl]
          simp [splitFirst, List.append_nil, hfind]
      · have hremlen : 1 ≤ remaining.length := by
          cases remaining with
          | nil => exact absurd rfl hrem
          | cons a t => simp
        have hdroplen : (remaining.drop c).length < f' := by
          rw [List.length_drop]
          omega
        have hstep : readlineFuel sep c (f' + 1) carry remaining =
            readlineFuel sep c f' (carry ++ remaining.take c) (remaining.drop c) := by
          simp only [readlineFuel, hfind, if_neg hrem]
        have hglue : (carry ++ remaining.take c) ++ remaining.drop c = carry ++ remaining := by
          rw [List.append_assoc, List.take_append_drop]
        have := ih (carry ++ remaining.take c) (remaining.drop c) hdroplen
        rw [hglue] at this
        rw [hstep]
        exact this

/-- The LineReader iteration over chunks equals the chunk-free reference
splitting, for any chunk size `c ≥ 1` and nonempty separator. -/
theorem lineReaderFuel_eq (sep : List Nat) (c : Nat) (hsep : sep ≠ []) (hc : 1 ≤ c) :
    ∀ f carry remaining, carry.length + remaining.length < f →
      lineReaderFuel sep c f carry remaining = lineSplitFuel sep f (carry ++ remaining) := by
  intro f
  induction f with
  | zero => intro carry remaining h; omega
  | succ f' ih =>
    intro carry remaining h
    by_cases hempty : carry = [] ∧ remaining = []
    · obtain ⟨h1, h2⟩ := hempty
      subst h1
      subst h2
      simp [lineReaderFuel, lineSplitFuel]
    · have hne : carry ++ remaining ≠ [] := by
        intro hx
        rw [List.append_eq_nil] at hx
        exact hempty hx
      have hr := readlineFuel_spec sep c hc (remaining.length + 1) carry remaining (by omega)
      have hlen : (carry ++ remaining).length = carry.length + remaining.length :=
        List.length_append carry remaining
      have hrestlt := splitFirst_rest_lt sep (carry ++ remaining) hsep hne
      simp only [lineReaderFuel, if_neg hempty]
      have hrhs : lineSplitFuel sep (f' + 1) (carry ++ remaining) =
          (splitFirst sep (carry ++ remaining)).1 ::
            lineSplitFuel sep f' (splitFirst sep (carry ++ remaining)).2 := by
        simp only [lineSplitFuel, if_neg hne]
      rw [hrhs]
      congr 1
      · exact hr.1
      · have hsub : (readlineFuel sep c (remaining.length + 1) carry remaining).2.1.length +
            (readlineFuel sep c (remaining.length + 1) carry remaining).2.2.length =
            (splitFirst sep (carry ++ remaining)).2.length := by
          rw [← List.length_append, hr.2]
        rw [ih _ _ (by omega), hr.2]

/-- An end-with-separator fact transports from a suffix to the whole
list. -/
theorem endsWithSep_drop (sep s : List Nat) (m : Nat)
    (h : endsWithSep sep (s.drop m) = true) : endsWithSep sep s = true := by
  simp only [endsWithSep, decide_eq_true_eq] at h ⊢
  obtain ⟨hk, heq⟩ := h
  rw [List.length_drop] at hk
  by_cases hm : m ≤ s.length
  · rw [List.length_drop, List.drop_drop] at heq
    have harith : m + (s.length - m - sep.length) = s.length - sep.length := by omega
    rw [harith] at heq
    exact ⟨by omega, heq⟩
  · have hsep : sep = [] := List.eq_nil_of_length_eq_zero (by omega)
    subst hsep
    refine ⟨by simp, ?_⟩
    simp [List.drop_length]

/-- A separator occurrence that reaches exactly the end of the list means
the list ends with the separator. -/
theorem endsWithSep_of_occurrence (sep s : List Nat) (p : Nat)
    (hfind : findSep sep s = some p) (hall : p + sep.length = s.length) :
    endsWithSep sep s = true := by
  have hlw := findSep_leadsWith sep s p hfind
  have hb := findSep_bound sep s p hfind
  have hlen : (s.drop p).length = sep.length := by
    rw [List.length_drop]
    omega
  have heq : s.drop p = sep := leadsWith_eq_of_length sep (s.drop p) hlw hlen
  simp only [endsWithSep, decide_eq_true_eq]
  refine ⟨by omega, ?_⟩
  have hp : s.length - sep.length = p := by omega
  rw [hp]
  exact heq

/-- The last line of a longer line list ignores the head. -/
theorem lastLine_cons (l : List Nat) (t : List (List Nat)) (ht : t ≠ []) :
    lastLine (l :: t) = lastLine t := by
  cases t with
  | nil => exact absurd rfl ht
  | cons a t' => rfl

/-- A nonempty content without a trailing separator yields a final line
that contains no separator occurrence and does not end with the
separator (the tail-less line, kept exactly once). -/
theorem lineSplitFuel_last (sep : List Nat) (hsep : sep ≠ []) :
    ∀ f s, s.length ≤ f → s ≠ [] → endsWithSep sep s = false →
      lineSplitFuel sep f s ≠ [] ∧
      findSep sep (lastLine (lineSplitFuel sep f s)) = none ∧
      endsWithSep sep (lastLine (lineSplitFuel sep f s)) = false := by
  intro f
  induction f with
  | zero =>
    intro s hf hs _
    have : s = [] := List.eq_nil_of_length_eq_zero (by omega)
    exact absurd this hs
  | succ f' ih =>
    intro s hf hs hend
    simp only [lineSplitFuel, if_neg hs]
    cases hfind : findSep sep s with
    | none =>
      have hsf : splitFirst sep s = (s, []) := by simp [splitFirst, hfind]
      rw [hsf]
      simp only [lineSplitFuel_nil]
      refine ⟨by simp, ?_, ?_⟩
      · simpa [lastLine] using hfind
      · simpa [lastLine] using hend
    | some p =>
      have hsf2 : (splitFirst sep s).2 = s.drop (p + sep.length) := by
        simp [splitFirst, hfind]
      have hb := findSep_bound sep s p hfind
      have hrlt : (splitFirst sep s).2.length < s.length := splitFirst_rest_lt sep s hsep hs
      have hrne : (splitFirst sep s).2 ≠ [] := by
        intro hx
        have hlen0 : (splitFirst sep s).2.length = 0 := by rw [hx]; rfl
        rw [hsf2, List.length_drop] at hlen0
        have hall : p + sep.length = s.length := by omega
        have htrue := endsWithSep_of_occurrence sep s p hfind hall
        rw [htrue] at hend
        exact Bool.noConfusion hend
      have hrend : endsWithSep sep (splitFirst sep s).2 = false := by
        cases hE : endsWithSep sep (splitFirst sep s).2 with
        | false => rfl
        | true =>
          have htrue : endsWithSep sep s = true := by
            apply endsWithSep_drop sep s (p + sep.length)
            rw [← hsf2]
            exact hE
          rw [htrue] at hend
          exact Bool.noConfusion hend
      obtain ⟨hne', hfind', hend'⟩ := ih (splitFirst sep s).2 (by omega) hrne hrend
      refine ⟨by simp, ?_, ?_⟩
      · rw [lastLine_cons _ _ hne']
        exact hfind'
      · rw [lastLine_cons _ _ hne']
        exact hend'

/-- C9.  For every nonempty separator (multi-byte included), every chunk
size `c ≥ 1` and every file content: (1) the chunked LineReader yields
exactly the lines of the chunk-free reference splitting — so a separator
occurrence straddling a chunk boundary is detected exactly once, neither
missed nor duplicated, because the scan runs over the carry plus the
newly read bytes; (2) concatenating all yielded lines reproduces the
content exactly; (3) a nonempty content that does not end with the
separator still yields a final partial line — one with no separator
occurrence and no trailing separator — exactly once before
end-of-sequence. -/
theorem linereader_boundary (sep content : List Nat) (c : Nat)
    (hsep : sep ≠ []) (hc : 1 ≤ c) :
    lineReaderLines sep c content = lineSplit sep content ∧
    concatAll (lineSplit sep content) = content ∧
    (content ≠ [] → endsWithSep sep content = false →
      lineSplit sep content ≠ [] ∧
      findSep sep (lastLine (lineSplit sep content)) = none ∧
      endsWithSep sep (lastLine (lineSplit sep content)) = false) := by
  refine ⟨?_, ?_, ?_⟩
  · unfold lineReaderLines lineSplit
    rw [lineReaderFuel_eq sep c hsep hc (content.length + 1) [] content (by simp)]
    simp only [List.nil_append]
    exact lineSplitFuel_congr sep hsep (content.length + 1) content.length content
      (by omega) le_rfl
  · unfold lineSplit
    exact concat_lineSplitFuel sep hsep content.length content le_rfl
  · intro hne hends
    unfold lineSplit
    exact lineSplitFuel_last sep hsep content.length content le_rfl hne hends

/-- Witness for `linereader_boundary`: separator `"\n"`, chunk size 5 and
content `"Hello\nWorld"` — the separator sits exactly at the first chunk
boundary and the content has no trailing separator. -/
theorem linereader_boundary_witness :
    ([10] : List Nat) ≠ [] ∧ 1 ≤ 5 ∧
    ([72, 101, 108, 108, 111, 10, 87, 111, 114, 108, 100] : List Nat) ≠ [] ∧
    endsWithSep [10] [72, 101, 108, 108, 111, 10, 87, 111, 114, 108, 100] = false ∧
    (lineReaderLines [10] 5 [72, 101, 108, 108, 111, 10, 87, 111, 114, 108, 100] =
      lineSplit [10] [72, 101, 108, 108, 111, 10, 87, 111, 114, 108, 100]) ∧
    lineReaderLines [10] 5 [72, 101, 108, 108, 111, 10, 87, 111, 114, 108, 100] =
      [[72, 101, 108, 108, 111, 10], [87, 111, 114, 108, 100]] ∧
    concatAll (lineSplit [10] [72, 101, 108, 108, 111, 10, 87, 111, 114, 108, 100]) =
      [72, 101, 108, 108, 111, 10, 87, 111, 114, 108, 100] ∧
    findSep [10] (lastLine (lineSplit [10] [72, 101, 108, 108, 111, 10, 87, 111, 114, 108, 100])) =
      none := by
  have h := linereader_boundary [10] [72, 101, 108, 108, 111, 10, 87, 111, 114, 108, 100] 5
    (by decide) (by decide)
  have h3 := h.2.2 (by decide) (by decide)
  exact ⟨by decide, by decide, by decide, by decide, h.1, by decide, h.2.1, h3.2.1⟩

end Aiofile
